import Mathlib

/-!
Verification of a priority queue implemented over a flat key-value store
(`PriorityQueueImpl` in `src/lib.rs`).  Keys are 8-byte big-endian encodings
of 64-bit priorities; values ("buckets") are concatenations of length-prefixed
payload records.  The Rust `HashMap<Vec<u8>, Vec<u8>>` is modelled as an
association list with unique keys; `Vec<u8>` is modelled as `List Nat`
(entries below 256 for all reachable data); Rust panics are modelled as
`Except` errors.
-/

namespace PQ

/-- Failure modes of the queue: `insert` panics when the payload exceeds 255
bytes; `peek`/`pop` panic when the store holds a key that is not 8 bytes or a
bucket shorter than its declared length prefix. -/
inductive QueueError where
  | payloadTooLarge : QueueError
  | malformedKey : QueueError
  | malformedRecord : QueueError
deriving DecidableEq, Repr

/-- A byte sequence (Rust `Vec<u8>`); entries are intended to lie below 256. -/
abbrev Bytes := List Nat

/-- The backing store (Rust `HashMap<Vec<u8>, Vec<u8>>`), modelled as an
association list whose keys are unique for all states built by the queue
operations. -/
abbrev Store := List (Bytes × Bytes)

/-- Big-endian byte expansion: `beBytesAux n p` is the list of the `n` base-256
digits of `p` from most to least significant, i.e. digit `p / 256 ^ i % 256`
for `i = n-1, …, 0`. -/
def beBytesAux : Nat → Nat → Bytes
  | 0, _ => []
  | n + 1, p => (p / 256 ^ n) % 256 :: beBytesAux n p

/-- Rust `priority.to_be_bytes().to_vec()`: the 8-byte big-endian encoding of
a 64-bit priority. -/
def encode_priority (p : Nat) : Bytes :=
  beBytesAux 8 p

/-- Rust `u64::from_be_bytes`: interpret a byte list as a big-endian number. -/
def fromBeBytes : Bytes → Nat
  | [] => 0
  | b :: rest => b * 256 ^ rest.length + fromBeBytes rest

/-- Rust `HashMap::get`: the bucket stored at key `k`, if any. -/
def lookup (s : Store) (k : Bytes) : Option Bytes :=
  match s with
  | [] => none
  | (k', v) :: rest => if k' = k then some v else lookup rest k

/-- Write-back through Rust `HashMap::get_mut`: replace the bucket stored at
key `k` by `v`, leaving all other entries alone. -/
def updateStore (s : Store) (k : Bytes) (v : Bytes) : Store :=
  s.map fun e => if e.1 = k then (e.1, v) else e

/-- Rust `HashMap::remove`: delete the entry whose key is `k`. -/
def removeKey (s : Store) (k : Bytes) : Store :=
  s.filter fun e => decide (e.1 ≠ k)

/-- The loop body of `get_highest_priority`: fold over all keys, decoding each
(8 bytes required, otherwise the `try_into` panics, modelled as
`malformedKey`) and keeping the running maximum, initialized by the caller
to 0.  `if acc < cur then cur else acc` mirrors the strict
`current_priority > high_priority_num` update. -/
def scanKeys : Store → Nat → Except QueueError Nat
  | [], acc => .ok acc
  | (k, _) :: rest, acc =>
    if k.length = 8 then
      let cur := fromBeBytes k
      scanKeys rest (if acc < cur then cur else acc)
    else .error .malformedKey

/-- Rust `get_highest_priority`: scan every key for the maximum decoded
priority (0 when the map is empty) and return its encoded form. -/
def get_highest_priority (s : Store) : Except QueueError Bytes :=
  match scanKeys s 0 with
  | .error e => .error e
  | .ok m => .ok (encode_priority m)

/-- Length-prefix a payload, as the element-encoding step of Rust `insert`
does: prepend `element.len()`; the `try_into::<u8>` panics (modelled as
`payloadTooLarge`) when the length exceeds 255. -/
def encode_record (element : Bytes) : Except QueueError Bytes :=
  if element.length ≤ 255 then .ok (element.length :: element)
  else .error .payloadTooLarge

/-- Split the front record off a bucket, as `peek`/`pop` do: read the first
byte as a length `n`, return bytes `[1, 1+n)` and the remainder.  An empty
bucket (`element[0]` out of bounds) or one shorter than `1 + n` bytes (slice
out of bounds) panics, modelled as `malformedRecord`. -/
def decode_front_record (bucket : Bytes) : Except QueueError (Bytes × Bytes) :=
  match bucket with
  | [] => .error .malformedRecord
  | n :: rest =>
    if n ≤ rest.length then .ok (rest.take n, rest.drop n)
    else .error .malformedRecord

/-- Rust `PriorityQueueImpl::new()`: the empty store. -/
def new : Store := []

/-- Rust `is_empty`: true iff the store has no entries. -/
def is_empty (s : Store) : Bool :=
  s.isEmpty

/-- Rust `insert`: encode the priority as the key and the length-prefixed
element as the record; insert a fresh entry when the key is absent, otherwise
append the record to the end of the existing bucket. -/
def insert (s : Store) (element : Bytes) (priority : Nat) : Except QueueError Store :=
  let byte_key := encode_priority priority
  match encode_record element with
  | .error e => .error e
  | .ok record =>
    match lookup s byte_key with
    | none => .ok (s ++ [(byte_key, record)])
    | some v => .ok (updateStore s byte_key (v ++ record))

/-- Rust `peek`: find the highest-priority key; if it is present in the map,
decode and return the front payload of its bucket, else return `none`. -/
def peek (s : Store) : Except QueueError (Option Bytes) :=
  match get_highest_priority s with
  | .error e => .error e
  | .ok top_key =>
    match lookup s top_key with
    | some element =>
      match decode_front_record element with
      | .error e => .error e
      | .ok (payload, _) => .ok (some payload)
    | none => .ok none

/-- Rust `peek` in state-passing form: identical body, threading the store
through so that the absence of mutation is an explicit output. -/
def peekSt (s : Store) : Except QueueError (Option Bytes × Store) :=
  match get_highest_priority s with
  | .error e => .error e
  | .ok top_key =>
    match lookup s top_key with
    | some element =>
      match decode_front_record element with
      | .error e => .error e
      | .ok (payload, _) => .ok (some payload, s)
    | none => .ok (none, s)

/-- Rust `pop`: find the highest-priority key; if present, drain the front
record from its bucket, write the remainder back (removing the entry
entirely when the remainder is empty) and return the payload. -/
def pop (s : Store) : Except QueueError (Option Bytes × Store) :=
  match get_highest_priority s with
  | .error e => .error e
  | .ok top_key =>
    match lookup s top_key with
    | some value =>
      match decode_front_record value with
      | .error e => .error e
      | .ok (payload, remaining) =>
        if remaining.isEmpty then .ok (some payload, removeKey s top_key)
        else .ok (some payload, updateStore s top_key remaining)
    | none => .ok (none, s)

/-- Run a list of `insert` calls in order. -/
def insertAll (s : Store) : List (Bytes × Nat) → Except QueueError Store
  | [] => .ok s
  | (el, pr) :: rest =>
    match insert s el pr with
    | .error e => .error e
    | .ok s' => insertAll s' rest

/-- Run `pop` `n` times, collecting the returned optional payloads and the
final store. -/
def popN : Store → Nat → Except QueueError (List (Option Bytes) × Store)
  | s, 0 => .ok ([], s)
  | s, n + 1 =>
    match pop s with
    | .error e => .error e
    | .ok (r, s') =>
      match popN s' n with
      | .error e => .error e
      | .ok (rs, s'') => .ok (r :: rs, s'')

/-- Lexicographic strict order on byte sequences (Rust `Vec<u8>`
ordering). -/
def lexLt : Bytes → Bytes → Bool
  | [], [] => false
  | [], _ :: _ => true
  | _ :: _, [] => false
  | a :: as, b :: bs => if a < b then true else if b < a then false else lexLt as bs

/-- Number of length-prefixed records a bucket holds. -/
def recordCount : Bytes → Nat
  | [] => 0
  | n :: rest => 1 + recordCount (rest.drop n)
termination_by b => b.length
decreasing_by
  simp only [List.length_cons, List.length_drop]
  omega

/-- A bucket is well formed when it is a concatenation of length-prefixed
records: each length byte is covered by that many following payload bytes. -/
def validBucket : Bytes → Bool
  | [] => true
  | n :: rest => decide (n ≤ rest.length) && validBucket (rest.drop n)
termination_by b => b.length
decreasing_by
  simp only [List.length_cons, List.length_drop]
  omega

/-- Total number of pending (inserted, not yet popped) payloads. -/
def pendingCount (s : Store) : Nat :=
  (s.map fun e => recordCount e.2).sum

/-- The store entry that a single `insert` of payload `e.1` at priority `e.2`
creates when the key is fresh: encoded key paired with the one-record
bucket. -/
def entryOf (e : Bytes × Nat) : Bytes × Bytes :=
  (encode_priority e.2, e.1.length :: e.1)

/-- The bucket holding the given payloads as consecutive length-prefixed
records, in order. -/
def encRecords : List Bytes → Bytes
  | [] => []
  | p :: rest => p.length :: (p ++ encRecords rest)

/-- The store states reachable through the public API: start from `new`, and
take any successful `insert` or `pop` step. -/
inductive Reachable : Store → Prop where
  | base : Reachable new
  | step_ins (q q' : Store) (el : Bytes) (pr : Nat) : Reachable q →
      insert q el pr = .ok q' → Reachable q'
  | step_pop (q q' : Store) (r : Option Bytes) : Reachable q →
      pop q = .ok (r, q') → Reachable q'

/-- Well-formedness invariant of reachable stores: keys are distinct 8-byte
sequences of bytes, and every bucket is a non-empty, well-formed record
concatenation. -/
def WF (s : Store) : Prop :=
  (s.map Prod.fst).Nodup ∧
    ∀ e ∈ s, e.1.length = 8 ∧ (∀ b ∈ e.1, b < 256) ∧
      validBucket e.2 = true ∧ e.2 ≠ []

/-! ### Byte-level encoding lemmas -/

theorem length_beBytesAux (n p : Nat) : (beBytesAux n p).length = n := by
  induction n generalizing p with
  | zero => rfl
  | succ n ih => simp [beBytesAux, ih]

theorem mem_beBytesAux_lt {n p b : Nat} (h : b ∈ beBytesAux n p) : b < 256 := by
  induction n generalizing p with
  | zero => simp [beBytesAux] at h
  | succ n ih =>
    simp only [beBytesAux, List.mem_cons] at h
    rcases h with h | h
    · subst h; exact Nat.mod_lt _ (by omega)
    · exact ih h

theorem beBytesAux_add_mul (n a r : Nat) :
    beBytesAux n (a * 256 ^ n + r) = beBytesAux n r := by
  induction n generalizing a with
  | zero => rfl
  | succ n ih =>
    simp only [beBytesAux]
    congr 1
    · have h1 : a * 256 ^ (n + 1) + r = r + (a * 256) * 256 ^ n := by
        rw [pow_succ]; ring
      rw [h1, Nat.add_mul_div_right _ _ (Nat.pos_pow_of_pos n (by omega)),
        Nat.add_mul_mod_self_right]
    · have h1 : a * 256 ^ (n + 1) + r = (a * 256) * 256 ^ n + r := by
        rw [pow_succ]; ring
      rw [h1, ih]

theorem fromBeBytes_beBytesAux (n p : Nat) :
    fromBeBytes (beBytesAux n p) = p % 256 ^ n := by
  induction n generalizing p with
  | zero => simp [beBytesAux, fromBeBytes, Nat.mod_one]
  | succ n ih =>
    simp only [beBytesAux, fromBeBytes, length_beBytesAux, ih]
    rw [pow_succ, Nat.mod_mul]
    ring

theorem fromBeBytes_lt (l : Bytes) (h : ∀ b ∈ l, b < 256) :
    fromBeBytes l < 256 ^ l.length := by
  induction l with
  | nil => simp [fromBeBytes]
  | cons b rest ih =>
    have hb : b < 256 := h b (by simp)
    have hr : fromBeBytes rest < 256 ^ rest.length :=
      ih fun x hx => h x (by simp [hx])
    simp only [fromBeBytes, List.length_cons]
    calc b * 256 ^ rest.length + fromBeBytes rest
        < b * 256 ^ rest.length + 256 ^ rest.length := by omega
      _ = (b + 1) * 256 ^ rest.length := by ring
      _ ≤ 256 * 256 ^ rest.length := by
          exact Nat.mul_le_mul_right _ (by omega)
      _ = 256 ^ (rest.length + 1) := by ring

theorem beBytesAux_fromBeBytes (l : Bytes) (h : ∀ b ∈ l, b < 256) :
    beBytesAux l.length (fromBeBytes l) = l := by
  induction l with
  | nil => rfl
  | cons b rest ih =>
    have hb : b < 256 := h b (by simp)
    have hr : fromBeBytes rest < 256 ^ rest.length :=
      fromBeBytes_lt rest fun x hx => h x (by simp [hx])
    simp only [fromBeBytes, List.length_cons, beBytesAux]
    congr 1
    · have h1 : b * 256 ^ rest.length + fromBeBytes rest
          = fromBeBytes rest + b * 256 ^ rest.length := by ring
      rw [h1, Nat.add_mul_div_right _ _ (Nat.pos_pow_of_pos _ (by omega)),
        Nat.div_eq_of_lt hr, Nat.zero_add, Nat.mod_eq_of_lt hb]
    · rw [beBytesAux_add_mul, ih fun x hx => h x (by simp [hx])]

theorem encode_priority_length (p : Nat) : (encode_priority p).length = 8 :=
  length_beBytesAux 8 p

theorem mem_encode_priority_lt {p b : Nat} (h : b ∈ encode_priority p) : b < 256 :=
  mem_beBytesAux_lt h

theorem two_pow_64_eq : 2 ^ 64 = 256 ^ 8 := by norm_num

theorem fromBeBytes_encode_priority {p : Nat} (h : p < 2 ^ 64) :
    fromBeBytes (encode_priority p) = p := by
  rw [encode_priority, fromBeBytes_beBytesAux, Nat.mod_eq_of_lt]
  omega

theorem encode_priority_fromBeBytes {k : Bytes} (hlen : k.length = 8)
    (hb : ∀ b ∈ k, b < 256) : encode_priority (fromBeBytes k) = k := by
  rw [encode_priority, ← hlen, beBytesAux_fromBeBytes k hb]

theorem encode_priority_inj {a b : Nat} (ha : a < 2 ^ 64) (hb : b < 2 ^ 64)
    (h : encode_priority a = encode_priority b) : a = b := by
  have := congrArg fromBeBytes h
  rwa [fromBeBytes_encode_priority ha, fromBeBytes_encode_priority hb] at this

theorem lexLt_beBytesAux (n : Nat) : ∀ a b : Nat, a < 256 ^ n → b < 256 ^ n →
    (lexLt (beBytesAux n a) (beBytesAux n b) = true ↔ a < b) := by
  induction n with
  | zero =>
    intro a b ha hb
    simp only [pow_zero, Nat.lt_one_iff] at ha hb
    subst ha; subst hb
    simp [beBytesAux, lexLt]
  | succ n ih =>
    intro a b ha hb
    have hpos : 0 < (256 : Nat) ^ n := Nat.pos_pow_of_pos _ (by omega)
    have hda : a / 256 ^ n < 256 := by
      apply Nat.div_lt_of_lt_mul
      rw [← pow_succ]; exact ha
    have hdb : b / 256 ^ n < 256 := by
      apply Nat.div_lt_of_lt_mul
      rw [← pow_succ]; exact hb
    have hta : beBytesAux n a = beBytesAux n (a % 256 ^ n) := by
      conv_lhs => rw [← Nat.div_add_mod a (256 ^ n)]
      rw [Nat.mul_comm, beBytesAux_add_mul]
    have htb : beBytesAux n b = beBytesAux n (b % 256 ^ n) := by
      conv_lhs => rw [← Nat.div_add_mod b (256 ^ n)]
      rw [Nat.mul_comm, beBytesAux_add_mul]
    simp only [beBytesAux, Nat.mod_eq_of_lt hda, Nat.mod_eq_of_lt hdb, lexLt]
    rcases Nat.lt_trichotomy (a / 256 ^ n) (b / 256 ^ n) with hc | hc | hc
    · simp only [if_pos hc, true_iff]
      exact Nat.lt_of_div_lt_div hc
    · have h1 : ¬ a / 256 ^ n < b / 256 ^ n := by omega
      have h2 : ¬ b / 256 ^ n < a / 256 ^ n := by omega
      simp only [if_neg h1, if_neg h2, hta, htb]
      rw [ih _ _ (Nat.mod_lt _ hpos) (Nat.mod_lt _ hpos)]
      have hea := Nat.div_add_mod a (256 ^ n)
      have heb := Nat.div_add_mod b (256 ^ n)
      rw [hc] at hea
      generalize 256 ^ n * (b / 256 ^ n) = m at hea heb
      omega
    · have h1 : ¬ a / 256 ^ n < b / 256 ^ n := by omega
      simp only [if_neg h1, if_pos hc]
      have hba := Nat.lt_of_div_lt_div hc
      constructor
      · intro hf; exact absurd hf (by simp)
      · intro hab; exact absurd hab (Nat.lt_asymm hba)

/-! ### Store primitive lemmas -/

theorem lookup_eq_none_iff (s : Store) (k : Bytes) :
    lookup s k = none ↔ k ∉ s.map Prod.fst := by
  induction s with
  | nil => simp [lookup]
  | cons e rest ih =>
    obtain ⟨k', v⟩ := e
    by_cases hk : k' = k
    · subst hk; simp [lookup]
    · simp [lookup, hk, ih, Ne.symm hk]

theorem lookup_mem {s : Store} {k v : Bytes} (h : lookup s k = some v) :
    (k, v) ∈ s := by
  induction s with
  | nil => simp [lookup] at h
  | cons e rest ih =>
    obtain ⟨k', v'⟩ := e
    by_cases hk : k' = k
    · subst hk
      simp only [lookup, if_true, eq_self_iff_true, Option.some.injEq] at h
      subst h; simp
    · simp only [lookup, if_neg hk] at h
      simp [ih h]

theorem lookup_eq_some_of_mem {s : Store} {k v : Bytes}
    (hnd : (s.map Prod.fst).Nodup) (h : (k, v) ∈ s) : lookup s k = some v := by
  induction s with
  | nil => simp at h
  | cons e rest ih =>
    obtain ⟨k', v'⟩ := e
    simp only [List.map_cons, List.nodup_cons] at hnd
    rcases List.mem_cons.mp h with h1 | h1
    · obtain ⟨rfl, rfl⟩ := Prod.mk.injEq .. ▸ h1
      simp [lookup]
    · have hk : k' ≠ k := by
        intro hkk
        subst hkk
        exact hnd.1 (List.mem_map.mpr ⟨(k', v), h1, rfl⟩)
      simp [lookup, hk, ih hnd.2 h1]

theorem map_fst_updateStore (s : Store) (k v : Bytes) :
    (updateStore s k v).map Prod.fst = s.map Prod.fst := by
  induction s with
  | nil => rfl
  | cons e rest ih =>
    by_cases hk : e.1 = k <;> simp [updateStore, hk] <;>
      simpa [updateStore] using ih

theorem mem_updateStore {s : Store} {k v : Bytes} {e : Bytes × Bytes}
    (h : e ∈ updateStore s k v) :
    e ∈ s ∨ (e.1 = k ∧ e.2 = v ∧ ∃ w, (k, w) ∈ s) := by
  rcases List.mem_map.mp h with ⟨e₀, he₀, heq⟩
  by_cases hk : e₀.1 = k
  · rw [if_pos hk] at heq
    right
    refine ⟨by rw [← heq]; exact hk, by rw [← heq], e₀.2, ?_⟩
    rw [← hk]
    exact he₀
  · rw [if_neg hk] at heq
    exact Or.inl (heq ▸ he₀)

theorem mem_removeKey {s : Store} {k : Bytes} {e : Bytes × Bytes}
    (h : e ∈ removeKey s k) : e ∈ s ∧ e.1 ≠ k := by
  have := List.mem_filter.mp h
  exact ⟨this.1, by simpa using this.2⟩

theorem map_fst_removeKey_sublist (s : Store) (k : Bytes) :
    ((removeKey s k).map Prod.fst).Sublist (s.map Prod.fst) :=
  (List.filter_sublist s).map Prod.fst

/-! ### Scan, bucket-shape and record-count lemmas -/

theorem scanKeys_isOk (s : Store) (h : ∀ e ∈ s, e.1.length = 8) :
    ∀ acc, ∃ m, scanKeys s acc = .ok m := by
  induction s with
  | nil => exact fun acc => ⟨acc, rfl⟩
  | cons e rest ih =>
    intro acc
    obtain ⟨k, v⟩ := e
    have hk : k.length = 8 := h (k, v) (by simp)
    simp only [scanKeys, if_pos hk]
    exact ih (fun e he => h e (by simp [he])) _

theorem validBucket_cons {n : Nat} {rest : Bytes} :
    validBucket (n :: rest) = true ↔
      n ≤ rest.length ∧ validBucket (rest.drop n) = true := by
  rw [validBucket]
  simp

theorem validBucket_record (p : Bytes) : validBucket (p.length :: p) = true := by
  rw [validBucket_cons]
  simp [validBucket]

theorem validBucket_append {v w : Bytes} (hw : validBucket w = true) :
    ∀ hv : validBucket v = true, validBucket (v ++ w) = true := by
  have H : ∀ N b, b.length ≤ N → validBucket b = true →
      validBucket (b ++ w) = true := by
    intro N
    induction N with
    | zero =>
      intro b hb _
      have : b = [] := List.length_eq_zero.mp (by omega)
      simpa [this]
    | succ N ih =>
      intro b hb hv
      match b with
      | [] => simpa
      | n :: rest =>
        rw [validBucket_cons] at hv
        rw [List.cons_append, validBucket_cons]
        refine ⟨by simp; omega, ?_⟩
        rw [List.drop_append_of_le_length hv.1]
        apply ih
        · have := List.length_drop n rest
          simp at hb
          omega
        · exact hv.2
  exact H v.length v (Nat.le_refl _)

theorem recordCount_cons (n : Nat) (rest : Bytes) :
    recordCount (n :: rest) = 1 + recordCount (rest.drop n) := by
  rw [recordCount]

theorem recordCount_nil : recordCount [] = 0 := by
  rw [recordCount]

theorem recordCount_append {v w : Bytes} (hv : validBucket v = true) :
    recordCount (v ++ w) = recordCount v + recordCount w := by
  have H : ∀ N b, b.length ≤ N → validBucket b = true →
      recordCount (b ++ w) = recordCount b + recordCount w := by
    intro N
    induction N with
    | zero =>
      intro b hb _
      have : b = [] := List.length_eq_zero.mp (by omega)
      simp [this, recordCount]
    | succ N ih =>
      intro b hb hv
      match b with
      | [] => simp [recordCount]
      | n :: rest =>
        rw [validBucket_cons] at hv
        rw [List.cons_append, recordCount_cons, recordCount_cons,
          List.drop_append_of_le_length hv.1,
          ih (rest.drop n) (by have := List.length_drop n rest; simp at hb; omega) hv.2]
        omega
  exact H v.length v (Nat.le_refl _) hv

theorem recordCount_pos {b : Bytes} (h : b ≠ []) : 0 < recordCount b := by
  match b with
  | n :: rest => rw [recordCount_cons]; omega

theorem encode_record_ok {el r : Bytes} (h : encode_record el = .ok r) :
    r = el.length :: el ∧ el.length ≤ 255 := by
  unfold encode_record at h
  split at h
  · exact ⟨(Except.ok.injEq .. ▸ h).symm, by assumption⟩
  · cases h

theorem decode_front_record_ok {b p rem : Bytes}
    (h : decode_front_record b = .ok (p, rem)) :
    ∃ n rest, b = n :: rest ∧ n ≤ rest.length ∧
      p = rest.take n ∧ rem = rest.drop n := by
  match b with
  | [] => cases h
  | n :: rest =>
    simp only [decode_front_record] at h
    split at h
    · have := Except.ok.injEq .. ▸ h
      exact ⟨n, rest, rfl, by assumption,
        (congrArg Prod.fst this).symm, (congrArg Prod.snd this).symm⟩
    · cases h

/-! ### The well-formedness invariant is preserved by the API -/

theorem wf_new : WF new := by
  constructor
  · simp [new]
  · intro e he
    simp [new] at he

theorem wf_insert {q q' : Store} {el : Bytes} {pr : Nat}
    (hwf : WF q) (h : insert q el pr = .ok q') : WF q' := by
  obtain ⟨hnd, hent⟩ := hwf
  unfold insert at h
  cases hrec : encode_record el with
  | error e => rw [hrec] at h; cases h
  | ok record =>
    rw [hrec] at h
    simp only [] at h
    obtain ⟨hrecv, hlen⟩ := encode_record_ok hrec
    subst hrecv
    cases hlk : lookup q (encode_priority pr) with
    | none =>
      rw [hlk] at h
      simp only [] at h
      obtain rfl : q ++ [(encode_priority pr, el.length :: el)] = q' :=
        Except.ok.injEq .. ▸ h
      constructor
      · rw [List.map_append, List.nodup_append]
        refine ⟨hnd, by simp, ?_⟩
        intro a ha hb
        simp at hb
        rw [hb] at ha
        exact ((lookup_eq_none_iff q _).mp hlk) ha
      · intro e he
        rcases List.mem_append.mp he with h1 | h1
        · exact hent e h1
        · simp only [List.mem_singleton] at h1
          subst h1
          exact ⟨encode_priority_length pr, fun b hb => mem_encode_priority_lt hb,
            validBucket_record el, by simp⟩
    | some v =>
      rw [hlk] at h
      simp only [] at h
      obtain rfl : updateStore q (encode_priority pr) (v ++ el.length :: el) = q' :=
        Except.ok.injEq .. ▸ h
      have hv : validBucket v = true :=
        (hent _ (lookup_mem hlk)).2.2.1
      constructor
      · rw [map_fst_updateStore]; exact hnd
      · intro e he
        rcases mem_updateStore he with h1 | ⟨h1, h2, w, hw⟩
        · exact hent e h1
        · refine ⟨?_, ?_, ?_, ?_⟩
          · rw [h1]; exact encode_priority_length pr
          · rw [h1]; exact fun b hb => mem_encode_priority_lt hb
          · rw [h2]; exact validBucket_append (validBucket_record el) hv
          · rw [h2]; simp

theorem wf_pop {q q' : Store} {r : Option Bytes}
    (hwf : WF q) (h : pop q = .ok (r, q')) : WF q' := by
  obtain ⟨hnd, hent⟩ := hwf
  unfold pop at h
  cases hghp : get_highest_priority q with
  | error e => rw [hghp] at h; cases h
  | ok top_key =>
    rw [hghp] at h
    simp only [] at h
    cases hlk : lookup q top_key with
    | none =>
      rw [hlk] at h
      simp only [] at h
      obtain ⟨rfl, rfl⟩ : r = none ∧ q = q' := by
        have := Except.ok.injEq .. ▸ h
        exact ⟨(congrArg Prod.fst this).symm, congrArg Prod.snd this⟩
      exact ⟨hnd, hent⟩
    | some value =>
      rw [hlk] at h
      simp only [] at h
      cases hdec : decode_front_record value with
      | error e => rw [hdec] at h; cases h
      | ok pr' =>
        obtain ⟨payload, remaining⟩ := pr'
        rw [hdec] at h
        simp only [] at h
        obtain ⟨n, rest, hval, hn, hpay, hrem⟩ := decode_front_record_ok hdec
        have hkv : (top_key, value) ∈ q := lookup_mem hlk
        have hvalid : validBucket value = true := (hent _ hkv).2.2.1
        have hvrest : validBucket remaining = true := by
          rw [hrem, hval] at *
          exact (validBucket_cons.mp hvalid).2
        by_cases hemp : remaining.isEmpty
        · rw [if_pos hemp] at h
          obtain rfl : removeKey q top_key = q' :=
            congrArg Prod.snd (Except.ok.injEq .. ▸ h)
          constructor
          · exact hnd.sublist (map_fst_removeKey_sublist q top_key)
          · intro e he
            exact hent e (mem_removeKey he).1
        · rw [if_neg hemp] at h
          obtain rfl : updateStore q top_key remaining = q' :=
            congrArg Prod.snd (Except.ok.injEq .. ▸ h)
          constructor
          · rw [map_fst_updateStore]; exact hnd
          · intro e he
            rcases mem_updateStore he with h1 | ⟨h1, h2, w, hw⟩
            · exact hent e h1
            · refine ⟨?_, ?_, ?_, ?_⟩
              · rw [h1]; exact (hent _ hkv).1
              · rw [h1]; exact (hent _ hkv).2.1
              · rw [h2]; exact hvrest
              · rw [h2]; simpa [List.isEmpty_iff] using hemp

theorem reachable_wf {q : Store} (h : Reachable q) : WF q := by
  induction h with
  | base => exact wf_new
  | step_ins q q' el pr _ hstep ih => exact wf_insert ih hstep
  | step_pop q q' r _ hstep ih => exact wf_pop ih hstep

/-! ### Agreement of `peek`, `peekSt` and `pop` -/

theorem peek_eq_pop_map_fst (s : Store) : peek s = Except.map Prod.fst (pop s) := by
  unfold peek pop
  cases get_highest_priority s with
  | error e => rfl
  | ok top_key =>
    simp only []
    cases lookup s top_key with
    | none => rfl
    | some value =>
      simp only []
      cases decode_front_record value with
      | error e => rfl
      | ok pr =>
        obtain ⟨payload, remaining⟩ := pr
        simp only []
        by_cases hemp : remaining.isEmpty <;> simp [hemp, Except.map]

theorem peekSt_eq_peek (s : Store) :
    peekSt s = Except.map (fun r => (r, s)) (peek s) := by
  unfold peekSt peek
  cases get_highest_priority s with
  | error e => rfl
  | ok top_key =>
    simp only []
    cases lookup s top_key with
    | none => rfl
    | some value =>
      simp only []
      cases decode_front_record value with
      | error e => rfl
      | ok pr => obtain ⟨payload, remaining⟩ := pr; rfl

theorem get_highest_priority_isOk {s : Store}
    (h8 : ∀ e ∈ s, e.1.length = 8) : ∃ k, get_highest_priority s = .ok k := by
  obtain ⟨m, hm⟩ := scanKeys_isOk s h8 0
  refine ⟨encode_priority m, ?_⟩
  unfold get_highest_priority
  rw [hm]

theorem pop_ok_of_wf {s : Store} (hwf : WF s) :
    ∃ r s', pop s = .ok (r, s') := by
  obtain ⟨k, hk⟩ := get_highest_priority_isOk fun e he => (hwf.2 e he).1
  unfold pop
  rw [hk]
  simp only []
  cases hlk : lookup s k with
  | none => exact ⟨none, s, rfl⟩
  | some value =>
    have hmem := lookup_mem hlk
    have hvalid := (hwf.2 _ hmem).2.2.1
    have hne := (hwf.2 _ hmem).2.2.2
    match value, hvalid, hne with
    | n :: rest, hvalid, _ =>
      rw [validBucket_cons] at hvalid
      have hd : decode_front_record (n :: rest) = .ok (rest.take n, rest.drop n) := by
        simp [decode_front_record, hvalid.1]
      simp only []
      rw [hd]
      simp only []
      by_cases hemp : (rest.drop n).isEmpty
      · rw [if_pos hemp]
        exact ⟨_, _, rfl⟩
      · rw [if_neg hemp]
        exact ⟨_, _, rfl⟩

theorem peek_ok_of_wf {s : Store} (hwf : WF s) :
    ∃ r s', pop s = .ok (r, s') ∧ peek s = .ok r := by
  obtain ⟨r, s', h⟩ := pop_ok_of_wf hwf
  refine ⟨r, s', h, ?_⟩
  rw [peek_eq_pop_map_fst, h]
  rfl

/-! ### Characterizing the highest-priority scan on single-record stores -/

theorem ite_lt_eq_max (a b : Nat) : (if a < b then b else a) = max a b := by
  split <;> omega

theorem le_foldl_max (l : List Nat) : ∀ acc, acc ≤ l.foldl max acc := by
  induction l with
  | nil => simp
  | cons b rest ih =>
    intro acc
    simp only [List.foldl_cons]
    exact le_trans (Nat.le_max_left acc b) (ih (max acc b))

theorem mem_le_foldl_max {l : List Nat} {x : Nat} (h : x ∈ l) :
    ∀ acc, x ≤ l.foldl max acc := by
  induction l with
  | nil => simp at h
  | cons b rest ih =>
    intro acc
    simp only [List.foldl_cons]
    rcases List.mem_cons.mp h with rfl | h1
    · exact le_trans (Nat.le_max_right acc x) (le_foldl_max rest _)
    · exact ih h1 _

theorem foldl_max_mem (l : List Nat) :
    ∀ acc, l.foldl max acc = acc ∨ l.foldl max acc ∈ l := by
  induction l with
  | nil => intro acc; left; rfl
  | cons b rest ih =>
    intro acc
    simp only [List.foldl_cons]
    rcases ih (max acc b) with h | h
    · rw [h]
      rcases Nat.le_total acc b with hab | hab
      · right; rw [Nat.max_eq_right hab]; exact List.mem_cons_self _ _
      · left; rw [Nat.max_eq_left hab]
    · right; exact List.mem_cons_of_mem _ h

theorem foldl_max_mem_of_ne {l : List Nat} (h : l ≠ []) : l.foldl max 0 ∈ l := by
  match l with
  | b :: rest =>
    have h0 : max 0 b = b := by omega
    simp only [List.foldl_cons, h0]
    rcases foldl_max_mem rest b with h1 | h1
    · rw [h1]; exact List.mem_cons_self _ _
    · exact List.mem_cons_of_mem _ h1

theorem scanKeys_map_entryOf (M : List (Bytes × Nat)) :
    ∀ acc, (∀ e ∈ M, e.2 < 2 ^ 64) →
      scanKeys (M.map entryOf) acc = .ok ((M.map Prod.snd).foldl max acc) := by
  induction M with
  | nil => intro acc _; rfl
  | cons e rest ih =>
    intro acc hb
    obtain ⟨el, pr⟩ := e
    have hpr : pr < 2 ^ 64 := hb (el, pr) (by simp)
    show scanKeys ((encode_priority pr, el.length :: el) :: rest.map entryOf) acc = _
    rw [scanKeys]
    rw [if_pos (encode_priority_length pr)]
    simp only []
    rw [fromBeBytes_encode_priority hpr, ite_lt_eq_max,
      ih (max acc pr) fun e he => hb e (by simp [he])]
    rfl

theorem ghp_map_entryOf (M : List (Bytes × Nat))
    (hb : ∀ e ∈ M, e.2 < 2 ^ 64) :
    get_highest_priority (M.map entryOf) =
      .ok (encode_priority ((M.map Prod.snd).foldl max 0)) := by
  unfold get_highest_priority
  rw [scanKeys_map_entryOf M 0 hb]

theorem lookup_map_entryOf (M : List (Bytes × Nat)) (P : Nat)
    (hb : ∀ e ∈ M, e.2 < 2 ^ 64) (hP : P < 2 ^ 64) :
    lookup (M.map entryOf) (encode_priority P) =
      (M.find? fun e => decide (e.2 = P)).map fun e => e.1.length :: e.1 := by
  induction M with
  | nil => rfl
  | cons e rest ih =>
    obtain ⟨el, pr⟩ := e
    have hpr : pr < 2 ^ 64 := hb (el, pr) (by simp)
    by_cases hq : pr = P
    · subst hq
      rw [List.find?_cons_of_pos _ (by simp)]
      simp [lookup, entryOf]
    · have h1 : encode_priority pr ≠ encode_priority P := fun hc =>
        hq (encode_priority_inj hpr hP hc)
      rw [List.find?_cons_of_neg _ (by simp [hq])]
      have h2 := ih fun e he => hb e (by simp [he])
      simpa [lookup, entryOf, h1] using h2

theorem removeKey_map_entryOf (M : List (Bytes × Nat)) (P : Nat)
    (hb : ∀ e ∈ M, e.2 < 2 ^ 64) (hP : P < 2 ^ 64) :
    removeKey (M.map entryOf) (encode_priority P) =
      (M.filter fun e => decide (e.2 ≠ P)).map entryOf := by
  unfold removeKey
  rw [List.filter_map]
  congr 1
  apply List.filter_congr
  intro e he
  by_cases hq : e.2 = P
  · simp [entryOf, hq]
  · have h1 : encode_priority e.2 ≠ encode_priority P := fun hc =>
      hq (encode_priority_inj (hb e he) hP hc)
    simp [entryOf, hq, h1]

theorem insertAll_fresh : ∀ (M A : List (Bytes × Nat)),
    ((A ++ M).map Prod.snd).Nodup →
    (∀ e ∈ A ++ M, e.2 < 2 ^ 64 ∧ e.1.length ≤ 255) →
    insertAll (A.map entryOf) M = .ok ((A ++ M).map entryOf) := by
  intro M
  induction M with
  | nil =>
    intro A _ _
    simp [insertAll]
  | cons e rest ih =>
    intro A hnd hb
    obtain ⟨el, pr⟩ := e
    have hpr : pr < 2 ^ 64 := (hb (el, pr) (by simp)).1
    have hlen : el.length ≤ 255 := (hb (el, pr) (by simp)).2
    have hlk : lookup (A.map entryOf) (encode_priority pr) = none := by
      rw [lookup_eq_none_iff]
      intro hmem
      rw [List.map_map] at hmem
      rcases List.mem_map.mp hmem with ⟨a, ha, hkey⟩
      have ha2 : a.2 = pr := by
        have hab : a.2 < 2 ^ 64 := (hb a (List.mem_append_left _ ha)).1
        exact encode_priority_inj hab hpr hkey
      rw [List.map_append] at hnd
      have hdisj := (List.nodup_append.mp hnd).2.2
      exact hdisj (List.mem_map.mpr ⟨a, ha, ha2⟩) (by simp)
    have hrec : encode_record el = .ok (el.length :: el) := by
      simp [encode_record, hlen]
    have hins : insert (A.map entryOf) el pr =
        .ok (A.map entryOf ++ [(encode_priority pr, el.length :: el)]) := by
      unfold insert
      simp only []
      rw [hrec]
      simp only []
      rw [hlk]
    rw [insertAll]
    rw [hins]
    simp only []
    have hA : A.map entryOf ++ [(encode_priority pr, el.length :: el)] =
        (A ++ [(el, pr)]).map entryOf := by
      simp [entryOf]
    rw [hA]
    have hassoc : (A ++ [(el, pr)]) ++ rest = A ++ ((el, pr) :: rest) := by
      rw [List.append_assoc]
      rfl
    have := ih (A ++ [(el, pr)]) (by rw [hassoc]; exact hnd) (by rw [hassoc]; exact hb)
    rw [hassoc] at this
    exact this

theorem filter_prio_singleton : ∀ (M : List (Bytes × Nat)) (em : Bytes × Nat),
    (M.map Prod.snd).Nodup → em ∈ M →
    M.filter (fun e => decide (e.2 = em.2)) = [em] := by
  intro M
  induction M with
  | nil => intro em _ hm; simp at hm
  | cons a rest ih =>
    intro em hnd hm
    simp only [List.map_cons, List.nodup_cons] at hnd
    rcases List.mem_cons.mp hm with rfl | h1
    · rw [List.filter_cons_of_pos (by simp)]
      have hnil : rest.filter (fun e => decide (e.2 = em.2)) = [] := by
        rw [List.filter_eq_nil_iff]
        intro e he
        simp only [decide_eq_true_eq]
        intro hc
        exact hnd.1 (hc ▸ List.mem_map.mpr ⟨e, he, rfl⟩)
      rw [hnil]
    · have hane : a.2 ≠ em.2 := by
        intro hc
        exact hnd.1 (hc ▸ List.mem_map.mpr ⟨em, h1, rfl⟩)
      rw [List.filter_cons_of_neg (by simp [hane])]
      exact ih em hnd.2 h1

/-- Core induction for distinct priorities: starting from a store holding one
single-record bucket per priority, `popN` drains the store in strictly
descending priority order.  `MS` is the descending rearrangement of `M`. -/
theorem popN_distinct : ∀ (n : Nat) (M : List (Bytes × Nat)), n = M.length →
    (M.map Prod.snd).Nodup → (∀ e ∈ M, e.2 < 2 ^ 64) →
    ∃ MS : List (Bytes × Nat), MS.Perm M ∧
      MS.Pairwise (fun a b => b.2 < a.2) ∧
      popN (M.map entryOf) n = .ok (MS.map fun e => some e.1, []) := by
  intro n
  induction n with
  | zero =>
    intro M hlen _ _
    have hM : M = [] := List.length_eq_zero.mp hlen.symm
    subst hM
    exact ⟨[], List.Perm.refl _, List.Pairwise.nil, rfl⟩
  | succ n ih =>
    intro M hlen hnd hb
    have hMne : M ≠ [] := by intro h; subst h; simp at hlen
    set P := (M.map Prod.snd).foldl max 0 with hP
    have hPmem : P ∈ M.map Prod.snd :=
      foldl_max_mem_of_ne (by simpa using hMne)
    obtain ⟨em0, hem0, hem0P⟩ := List.mem_map.mp hPmem
    have hPlt : P < 2 ^ 64 := hem0P ▸ hb em0 hem0
    have hfindSome : (M.find? fun e => decide (e.2 = P)).isSome := by
      rw [List.find?_isSome]
      exact ⟨em0, hem0, by simp [hem0P]⟩
    obtain ⟨em, hem⟩ := Option.isSome_iff_exists.mp hfindSome
    have hemM : em ∈ M := List.mem_of_find?_eq_some hem
    have hemP : em.2 = P := by simpa using List.find?_some hem
    have hghp := ghp_map_entryOf M hb
    rw [← hP] at hghp
    have hlk : lookup (M.map entryOf) (encode_priority P) =
        some (em.1.length :: em.1) := by
      rw [lookup_map_entryOf M P hb hPlt, hem]
      rfl
    have hdec : decode_front_record (em.1.length :: em.1) = .ok (em.1, []) := by
      simp [decode_front_record]
    have hrem := removeKey_map_entryOf M P hb hPlt
    have hpop : pop (M.map entryOf) =
        .ok (some em.1, (M.filter fun e => decide (e.2 ≠ P)).map entryOf) := by
      unfold pop
      rw [hghp]
      simp only []
      rw [hlk]
      simp only []
      rw [hdec]
      simp only []
      rw [if_pos (show (List.isEmpty ([] : Bytes)) = true from rfl)]
      rw [hrem]
    set M' := M.filter (fun e => decide (e.2 ≠ P)) with hM'
    have hsub : M'.Sublist M := List.filter_sublist M
    have hnd' : (M'.map Prod.snd).Nodup := hnd.sublist (hsub.map Prod.snd)
    have hb' : ∀ e ∈ M', e.2 < 2 ^ 64 := fun e he => hb e (hsub.subset he)
    have hfsing : M.filter (fun e => decide (e.2 = P)) = [em] := by
      have hx := filter_prio_singleton M em hnd hemM
      rw [hemP] at hx
      exact hx
    have hperm : M.Perm (em :: M') := by
      have h1 := List.filter_append_perm (fun e => decide (e.2 = P)) M
      rw [hfsing] at h1
      have h2 : (M.filter fun x => !decide (x.2 = P)) = M' := by
        apply List.filter_congr
        intro x _
        simp [decide_not]
      rw [h2] at h1
      exact h1.symm
    have hlen' : n = M'.length := by
      have hx := hperm.length_eq
      simp only [List.length_cons] at hx
      omega
    obtain ⟨MS', hp', hpw', hpop'⟩ := ih M' hlen' hnd' hb'
    refine ⟨em :: MS', ?_, ?_, ?_⟩
    · exact (hp'.cons em).trans hperm.symm
    · constructor
      · intro b hb2
        have hbM' : b ∈ M' := hp'.mem_iff.mp hb2
        have hbM : b ∈ M := hsub.subset hbM'
        have hbP : b.2 ≠ P := by
          have hx := (List.mem_filter.mp hbM').2
          simpa using hx
        have hble : b.2 ≤ P :=
          mem_le_foldl_max (List.mem_map.mpr ⟨b, hbM, rfl⟩) 0
        rw [hemP]
        omega
      · exact hpw'
    · simp only [popN]
      rw [hpop]
      simp only []
      rw [hpop']
      rfl

/-! ### Single-priority stores: FIFO order within one bucket -/

theorem encRecords_append (xs ys : List Bytes) :
    encRecords (xs ++ ys) = encRecords xs ++ encRecords ys := by
  induction xs with
  | nil => rfl
  | cons p rest ih => simp [encRecords, ih]

theorem ghp_single_key (P : Nat) (hP : P < 2 ^ 64) (B : Bytes) :
    get_highest_priority [(encode_priority P, B)] = .ok (encode_priority P) := by
  have hscan : scanKeys [(encode_priority P, B)] 0 = .ok P := by
    rw [scanKeys]
    rw [if_pos (encode_priority_length P)]
    simp only []
    rw [fromBeBytes_encode_priority hP]
    have h0 : (if 0 < P then P else 0) = P := by split <;> omega
    rw [h0]
    rfl
  unfold get_highest_priority
  rw [hscan]

theorem decode_front_encRecords (p : Bytes) (ps : List Bytes) :
    decode_front_record (encRecords (p :: ps)) = .ok (p, encRecords ps) := by
  show decode_front_record (p.length :: (p ++ encRecords ps)) = _
  unfold decode_front_record
  simp only []
  rw [if_pos (by simp)]
  rw [List.take_append_of_le_length (Nat.le_refl _), List.take_length,
    List.drop_left]

theorem pop_single_key (P : Nat) (hP : P < 2 ^ 64) (p : Bytes) (ps : List Bytes) :
    pop [(encode_priority P, encRecords (p :: ps))] =
      .ok (some p,
        if ps.isEmpty then [] else [(encode_priority P, encRecords ps)]) := by
  unfold pop
  rw [ghp_single_key P hP]
  simp only []
  rw [show lookup [(encode_priority P, encRecords (p :: ps))] (encode_priority P)
    = some (encRecords (p :: ps)) from by simp [lookup]]
  simp only []
  rw [decode_front_encRecords]
  simp only []
  cases ps with
  | nil =>
    rw [if_pos (show (List.isEmpty (encRecords [])) = true from rfl)]
    simp [removeKey]
  | cons q qs =>
    rw [if_neg (show ¬ (List.isEmpty (encRecords (q :: qs))) = true from by
      simp [encRecords])]
    simp [updateStore, encRecords]

theorem peek_single_key (P : Nat) (hP : P < 2 ^ 64) (p : Bytes) (ps : List Bytes) :
    peek [(encode_priority P, encRecords (p :: ps))] = .ok (some p) := by
  rw [peek_eq_pop_map_fst, pop_single_key P hP p ps]
  rfl

theorem insertAll_same (P : Nat) : ∀ (ps acc : List Bytes),
    (∀ p ∈ ps, p.length ≤ 255) →
    insertAll [(encode_priority P, encRecords acc)] (ps.map fun p => (p, P)) =
      .ok [(encode_priority P, encRecords (acc ++ ps))] := by
  intro ps
  induction ps with
  | nil =>
    intro acc _
    simp [insertAll]
  | cons p rest ih =>
    intro acc hlen
    simp only [List.map_cons, insertAll]
    have hrec : encode_record p = .ok (p.length :: p) := by
      simp [encode_record, hlen p (by simp)]
    have hins : insert [(encode_priority P, encRecords acc)] p P =
        .ok [(encode_priority P, encRecords (acc ++ [p]))] := by
      unfold insert
      simp only []
      rw [hrec]
      simp only []
      rw [show lookup [(encode_priority P, encRecords acc)] (encode_priority P)
        = some (encRecords acc) from by simp [lookup]]
      simp [updateStore, encRecords_append, encRecords]
    rw [hins]
    simp only []
    have hx := ih (acc ++ [p]) fun x hx => hlen x (by simp [hx])
    rw [List.append_assoc] at hx
    simpa using hx

theorem popN_same (P : Nat) (hP : P < 2 ^ 64) : ∀ ps : List Bytes, ps ≠ [] →
    popN [(encode_priority P, encRecords ps)] ps.length = .ok (ps.map some, []) := by
  intro ps
  induction ps with
  | nil => intro h; cases h rfl
  | cons p rest ih =>
    intro _
    simp only [List.length_cons, popN]
    rw [pop_single_key P hP p rest]
    simp only []
    cases rest with
    | nil => rfl
    | cons q qs =>
      have hred : (if (q :: qs : List Bytes).isEmpty = true then ([] : Store)
          else [(encode_priority P, encRecords (q :: qs))]) =
          [(encode_priority P, encRecords (q :: qs))] := rfl
      rw [hred]
      rw [ih (by simp)]
      rfl

/-! ### Scan characterization on arbitrary well-formed stores -/

theorem scanKeys_wf (s : Store) (h : ∀ e ∈ s, e.1.length = 8) :
    ∀ acc, scanKeys s acc = .ok ((s.map fun e => fromBeBytes e.1).foldl max acc) := by
  induction s with
  | nil => intro acc; rfl
  | cons e rest ih =>
    intro acc
    obtain ⟨k, v⟩ := e
    have hk : k.length = 8 := h (k, v) (by simp)
    rw [scanKeys, if_pos hk]
    simp only []
    rw [ite_lt_eq_max, ih (fun e he => h e (by simp [he])) (max acc (fromBeBytes k))]
    rfl

theorem ghp_wf {s : Store} (hwf : WF s) (hne : s ≠ []) :
    ∃ k v, (k, v) ∈ s ∧ get_highest_priority s = .ok k ∧
      ∀ e ∈ s, fromBeBytes e.1 ≤ fromBeBytes k := by
  have h8 : ∀ e ∈ s, e.1.length = 8 := fun e he => (hwf.2 e he).1
  have hscan := scanKeys_wf s h8 0
  set M := ((s.map fun e => fromBeBytes e.1).foldl max 0) with hM
  have hmem : M ∈ s.map fun e => fromBeBytes e.1 := by
    apply foldl_max_mem_of_ne
    simpa using hne
  obtain ⟨e0, he0, he0M⟩ := List.mem_map.mp hmem
  refine ⟨e0.1, e0.2, by simpa using he0, ?_, ?_⟩
  · unfold get_highest_priority
    rw [hscan]
    simp only []
    rw [← he0M, encode_priority_fromBeBytes (hwf.2 e0 he0).1 (hwf.2 e0 he0).2.1]
  · intro e he
    have hle := mem_le_foldl_max
      (show fromBeBytes e.1 ∈ s.map fun e => fromBeBytes e.1 from
        List.mem_map.mpr ⟨e, he, rfl⟩) 0
    rw [he0M, hM]
    exact hle

theorem pop_none_of_wf {s s' : Store} (hwf : WF s)
    (h : pop s = .ok (none, s')) : s' = s ∧ s = [] := by
  unfold pop at h
  cases hghp : get_highest_priority s with
  | error e => rw [hghp] at h; cases h
  | ok top_key =>
    rw [hghp] at h
    simp only [] at h
    cases hlk : lookup s top_key with
    | none =>
      rw [hlk] at h
      simp only [] at h
      have hs' : s = s' := congrArg Prod.snd (Except.ok.injEq .. ▸ h)
      refine ⟨hs'.symm, ?_⟩
      by_contra hne
      obtain ⟨k, v, hm, hk, _⟩ := ghp_wf hwf hne
      rw [hghp] at hk
      have hkk : top_key = k := Except.ok.injEq .. ▸ hk
      rw [hkk] at hlk
      rw [lookup_eq_some_of_mem hwf.1 hm] at hlk
      cases hlk
    | some value =>
      rw [hlk] at h
      simp only [] at h
      cases hdec : decode_front_record value with
      | error e => rw [hdec] at h; cases h
      | ok pr =>
        obtain ⟨payload, remaining⟩ := pr
        rw [hdec] at h
        simp only [] at h
        by_cases hemp : remaining.isEmpty
        · rw [if_pos hemp] at h
          simp at h
        · rw [if_neg hemp] at h
          simp at h

/-! ### Pending-payload counting -/

theorem pendingCount_append (s t : Store) :
    pendingCount (s ++ t) = pendingCount s + pendingCount t := by
  simp [pendingCount]

theorem updateStore_not_mem {s : Store} {k w : Bytes}
    (h : k ∉ s.map Prod.fst) : updateStore s k w = s := by
  induction s with
  | nil => rfl
  | cons a rest ih =>
    simp only [List.map_cons, List.mem_cons, not_or] at h
    show ((a :: rest).map fun e => if e.1 = k then (e.1, w) else e) = a :: rest
    rw [List.map_cons, if_neg (fun hc => h.1 hc.symm)]
    exact congrArg (a :: .) (ih h.2)

theorem removeKey_not_mem {s : Store} {k : Bytes}
    (h : k ∉ s.map Prod.fst) : removeKey s k = s := by
  induction s with
  | nil => rfl
  | cons a rest ih =>
    simp only [List.map_cons, List.mem_cons, not_or] at h
    show ((a :: rest).filter fun e => decide (e.1 ≠ k)) = a :: rest
    rw [List.filter_cons_of_pos
      (by simp only [decide_eq_true_eq]; exact fun hc => h.1 hc.symm)]
    exact congrArg (a :: .) (ih h.2)

theorem pendingCount_updateStore {s : Store} {k v w : Bytes}
    (hnd : (s.map Prod.fst).Nodup) (hm : (k, v) ∈ s) :
    pendingCount (updateStore s k w) + recordCount v =
      pendingCount s + recordCount w := by
  induction s with
  | nil => simp at hm
  | cons a rest ih =>
    simp only [List.map_cons, List.nodup_cons] at hnd
    rcases List.mem_cons.mp hm with h1 | h1
    · subst h1
      have hknotin : k ∉ rest.map Prod.fst := hnd.1
      simp only [updateStore, List.map_cons, if_pos rfl]
      rw [show (rest.map fun e => if e.1 = k then (e.1, w) else e) =
        updateStore rest k w from rfl, updateStore_not_mem hknotin]
      simp [pendingCount]
      omega
    · have hak : a.1 ≠ k := by
        intro hc
        exact hnd.1 (hc ▸ List.mem_map.mpr ⟨(k, v), h1, rfl⟩)
      simp only [updateStore, List.map_cons, if_neg hak]
      rw [show (rest.map fun e => if e.1 = k then (e.1, w) else e) =
        updateStore rest k w from rfl]
      have := ih hnd.2 h1
      simp only [pendingCount, List.map_cons, List.sum_cons] at *
      omega

theorem pendingCount_removeKey {s : Store} {k v : Bytes}
    (hnd : (s.map Prod.fst).Nodup) (hm : (k, v) ∈ s) :
    pendingCount (removeKey s k) + recordCount v = pendingCount s := by
  induction s with
  | nil => simp at hm
  | cons a rest ih =>
    simp only [List.map_cons, List.nodup_cons] at hnd
    rcases List.mem_cons.mp hm with h1 | h1
    · subst h1
      have hknotin : k ∉ rest.map Prod.fst := hnd.1
      simp only [removeKey]
      rw [List.filter_cons_of_neg (by simp)]
      rw [show rest.filter (fun e => decide (e.1 ≠ k)) = removeKey rest k from rfl,
        removeKey_not_mem hknotin]
      simp [pendingCount]
      omega
    · have hak : a.1 ≠ k := by
        intro hc
        exact hnd.1 (hc ▸ List.mem_map.mpr ⟨(k, v), h1, rfl⟩)
      simp only [removeKey]
      rw [List.filter_cons_of_pos (by simp [hak])]
      rw [show rest.filter (fun e => decide (e.1 ≠ k)) = removeKey rest k from rfl]
      have := ih hnd.2 h1
      simp only [pendingCount, List.map_cons, List.sum_cons] at *
      omega

theorem pendingCount_insert {q q' : Store} {el : Bytes} {pr : Nat}
    (hwf : WF q) (h : insert q el pr = .ok q') :
    pendingCount q' = pendingCount q + 1 := by
  unfold insert at h
  cases hrec : encode_record el with
  | error e => rw [hrec] at h; cases h
  | ok record =>
    rw [hrec] at h
    simp only [] at h
    obtain ⟨hrecv, hlen⟩ := encode_record_ok hrec
    subst hrecv
    have hrc1 : recordCount (el.length :: el) = 1 := by
      rw [recordCount_cons, List.drop_length, recordCount_nil]
    cases hlk : lookup q (encode_priority pr) with
    | none =>
      rw [hlk] at h
      simp only [] at h
      obtain rfl : q ++ [(encode_priority pr, el.length :: el)] = q' :=
        Except.ok.injEq .. ▸ h
      rw [pendingCount_append]
      simp [pendingCount, hrc1]
    | some v =>
      rw [hlk] at h
      simp only [] at h
      obtain rfl : updateStore q (encode_priority pr) (v ++ el.length :: el) = q' :=
        Except.ok.injEq .. ▸ h
      have hmem := lookup_mem hlk
      have hvalid : validBucket v = true := (hwf.2 _ hmem).2.2.1
      have hupd := pendingCount_updateStore hwf.1 hmem (w := v ++ el.length :: el)
      rw [recordCount_append hvalid, hrc1] at hupd
      omega

theorem pendingCount_pop_some {q q' : Store} {pl : Bytes}
    (hwf : WF q) (h : pop q = .ok (some pl, q')) :
    pendingCount q' + 1 = pendingCount q := by
  unfold pop at h
  cases hghp : get_highest_priority q with
  | error e => rw [hghp] at h; cases h
  | ok top_key =>
    rw [hghp] at h
    simp only [] at h
    cases hlk : lookup q top_key with
    | none =>
      rw [hlk] at h
      simp only [] at h
      simp at h
    | some value =>
      rw [hlk] at h
      simp only [] at h
      cases hdec : decode_front_record value with
      | error e => rw [hdec] at h; cases h
      | ok pr' =>
        obtain ⟨payload, remaining⟩ := pr'
        rw [hdec] at h
        simp only [] at h
        obtain ⟨n, rest, hval, hn, hpay, hrem⟩ := decode_front_record_ok hdec
        have hmem : (top_key, value) ∈ q := lookup_mem hlk
        have hvalid : validBucket value = true := (hwf.2 _ hmem).2.2.1
        have hrcv : recordCount value = 1 + recordCount remaining := by
          rw [hval, recordCount_cons, ← hrem]
        by_cases hemp : remaining.isEmpty
        · rw [if_pos hemp] at h
          obtain rfl : removeKey q top_key = q' :=
            congrArg Prod.snd (Except.ok.injEq .. ▸ h)
          have hrm := pendingCount_removeKey hwf.1 hmem
          have hremnil : remaining = [] := by simpa [List.isEmpty_iff] using hemp
          rw [hremnil] at hrcv
          simp [recordCount] at hrcv
          omega
        · rw [if_neg hemp] at h
          obtain rfl : updateStore q top_key remaining = q' :=
            congrArg Prod.snd (Except.ok.injEq .. ▸ h)
          have hupd := pendingCount_updateStore hwf.1 hmem (w := remaining)
          omega

theorem insertAll_from_new (P : Nat) (p : Bytes) (rest : List Bytes)
    (hlen : ∀ x ∈ p :: rest, x.length ≤ 255) :
    insertAll new ((p :: rest).map fun x => (x, P)) =
      .ok [(encode_priority P, encRecords (p :: rest))] := by
  simp only [List.map_cons, insertAll]
  have hrec : encode_record p = .ok (p.length :: p) := by
    simp [encode_record, hlen p (by simp)]
  have hins1 : insert new p P = .ok [(encode_priority P, encRecords [p])] := by
    unfold insert
    simp only []
    rw [hrec]
    simp only []
    rw [show lookup new (encode_priority P) = none from rfl]
    simp [encRecords, new]
  rw [hins1]
  simp only []
  have hx := insertAll_same P rest [p] fun x hx => hlen x (by simp [hx])
  simpa using hx

/-! ### The claims -/

/-- C1: for every sequence of `insert` calls whose priorities are pairwise
distinct (payloads at most 255 bytes), popping as many times as there were
inserts returns the payloads in strictly descending order of their
priorities (`MS` is the descending-priority rearrangement of the insert
list) and leaves the queue empty.  The B, E, A, D, C scenario of the spec is
the witness instance. -/
theorem pq_C1 (L : List (Bytes × Nat))
    (hnd : (L.map Prod.snd).Nodup)
    (hpr : ∀ e ∈ L, e.2 < 2 ^ 64)
    (hlen : ∀ e ∈ L, e.1.length ≤ 255) :
    ∃ (q : Store) (MS : List (Bytes × Nat)), insertAll new L = .ok q ∧
      MS.Perm L ∧ MS.Pairwise (fun a b => b.2 < a.2) ∧
      popN q L.length = .ok (MS.map fun e => some e.1, new) := by
  have hins := insertAll_fresh L [] (by simpa using hnd)
    (by intro e he; simp only [List.nil_append] at he; exact ⟨hpr e he, hlen e he⟩)
  simp only [List.map_nil, List.nil_append] at hins
  obtain ⟨MS, hperm, hpw, hpop⟩ := popN_distinct L.length L rfl hnd hpr
  exact ⟨L.map entryOf, MS, hins, hperm, hpw, hpop⟩

theorem pq_C1_witness :
    (∃ (q : Store) (MS : List (Bytes × Nat)),
      insertAll new [([0], 5), ([1], 10), ([2], 3), ([3], 4), ([4], 6)] = .ok q ∧
      MS.Perm [([0], 5), ([1], 10), ([2], 3), ([3], 4), ([4], 6)] ∧
      MS.Pairwise (fun a b => b.2 < a.2) ∧
      popN q 5 = .ok (MS.map fun e => some e.1, new)) ∧
    (∃ q : Store, insertAll new [([0], 5), ([1], 10), ([2], 3), ([3], 4), ([4], 6)] = .ok q ∧
      popN q 5 = .ok ([some [1], some [4], some [0], some [3], some [2]], new)) := by
  refine ⟨pq_C1 _ (by decide) (by decide) (by decide), ⟨_, rfl, rfl⟩⟩

/-- C2: inserting any sequence of payloads all at one priority and then
popping that many times returns the payloads in insertion (FIFO) order, and
the queue ends empty, so `is_empty` is true afterwards. -/
theorem pq_C2 (ps : List Bytes) (P : Nat) (hP : P < 2 ^ 64)
    (hlen : ∀ p ∈ ps, p.length ≤ 255) :
    ∃ q, insertAll new (ps.map fun p => (p, P)) = .ok q ∧
      popN q ps.length = .ok (ps.map some, new) ∧
      is_empty new = true := by
  cases ps with
  | nil => exact ⟨new, rfl, rfl, rfl⟩
  | cons p rest =>
    refine ⟨[(encode_priority P, encRecords (p :: rest))], ?_, ?_, rfl⟩
    · exact insertAll_from_new P p rest hlen
    · exact popN_same P hP (p :: rest) (by simp)

theorem pq_C2_witness :
    ∃ q, insertAll new ([[1], [2], [3]].map fun p => (p, 10)) = .ok q ∧
      popN q 3 = .ok ([[1], [2], [3]].map some, new) ∧
      is_empty new = true :=
  pq_C2 [[1], [2], [3]] 10 (by decide) (by decide)

/-- C3: on every reachable state, `peek` succeeds and returns the store
unchanged; a second `peek` run on the state left by the first returns the
same value and the same state; and running `pop` after a `peek` gives
exactly what `pop` gives without the `peek`. -/
theorem pq_C3 (q : Store) (hq : Reachable q) :
    ∃ r, peekSt q = .ok (r, q) ∧
      ((peekSt q).bind fun p => peekSt p.2) = .ok (r, q) ∧
      ((peekSt q).bind fun p => pop p.2) = pop q := by
  have hwf := reachable_wf hq
  obtain ⟨r, s', hpop, hpeek⟩ := peek_ok_of_wf hwf
  have hps : peekSt q = .ok (r, q) := by
    rw [peekSt_eq_peek, hpeek]
    rfl
  refine ⟨r, hps, ?_, ?_⟩
  · rw [hps]
    exact hps
  · rw [hps]
    rfl

theorem pq_C3_witness :
    ∃ r, peekSt [([0, 0, 0, 0, 0, 0, 0, 5], [1, 0])] =
        .ok (r, [([0, 0, 0, 0, 0, 0, 0, 5], [1, 0])]) ∧
      ((peekSt [([0, 0, 0, 0, 0, 0, 0, 5], [1, 0])]).bind fun p => peekSt p.2) =
        .ok (r, [([0, 0, 0, 0, 0, 0, 0, 5], [1, 0])]) ∧
      ((peekSt [([0, 0, 0, 0, 0, 0, 0, 5], [1, 0])]).bind fun p => pop p.2) =
        pop [([0, 0, 0, 0, 0, 0, 0, 5], [1, 0])] :=
  pq_C3 _ (Reachable.step_ins new _ [0] 5 Reachable.base rfl)

/-- C4: `insert` fails with `payloadTooLarge` exactly when the payload is
longer than 255 bytes; payloads of length at most 255 (in particular
exactly 255) are accepted; and a zero-length payload inserted into a new
queue is returned by `peek` and `pop` as an empty payload. -/
theorem pq_C4 :
    (∀ (q : Store) (el : Bytes) (pr : Nat),
      insert q el pr = .error .payloadTooLarge ↔ 255 < el.length) ∧
    (∀ (q : Store) (el : Bytes) (pr : Nat), el.length ≤ 255 →
      ∃ q', insert q el pr = .ok q') ∧
    (∀ pr : Nat, pr < 2 ^ 64 →
      ∃ q, insert new [] pr = .ok q ∧ peek q = .ok (some []) ∧
        ∃ q', pop q = .ok (some [], q')) := by
  refine ⟨?_, ?_, ?_⟩
  · intro q el pr
    constructor
    · intro h
      by_contra hle
      push_neg at hle
      have hrec : encode_record el = .ok (el.length :: el) := by
        simp [encode_record, hle]
      unfold insert at h
      rw [hrec] at h
      simp only [] at h
      cases hlk : lookup q (encode_priority pr) with
      | none => rw [hlk] at h; simp only [] at h; cases h
      | some v => rw [hlk] at h; simp only [] at h; cases h
    · intro h
      have hrec : encode_record el = .error .payloadTooLarge := by
        unfold encode_record
        rw [if_neg (by omega)]
      unfold insert
      rw [hrec]
  · intro q el pr h
    have hrec : encode_record el = .ok (el.length :: el) := by
      simp [encode_record, h]
    unfold insert
    rw [hrec]
    simp only []
    cases hlk : lookup q (encode_priority pr) with
    | none => exact ⟨_, rfl⟩
    | some v => exact ⟨_, rfl⟩
  · intro pr hpr
    have h1 : insert new [] pr = .ok [(encode_priority pr, [0])] := by
      unfold insert
      rfl
    have he : encRecords [[]] = ([0] : Bytes) := rfl
    have h2 := peek_single_key pr hpr [] []
    rw [he] at h2
    have h3 := pop_single_key pr hpr [] []
    rw [he] at h3
    exact ⟨_, h1, h2, _, h3⟩

set_option maxRecDepth 40000 in
theorem pq_C4_witness :
    (insert new (List.replicate 256 7) 3 = .error .payloadTooLarge ↔
      255 < (List.replicate 256 7).length) ∧
    (∃ q, insert new (List.replicate 255 7) 3 = .ok q) ∧
    (∃ q, insert new [] 0 = .ok q ∧ peek q = .ok (some []) ∧
      ∃ q', pop q = .ok (some [], q')) :=
  ⟨pq_C4.1 new (List.replicate 256 7) 3,
   pq_C4.2.1 new (List.replicate 255 7) 3 (by decide),
   pq_C4.2.2 0 (by norm_num)⟩

/-- C5: record encoding round-trips: for every payload of length at most
255, encoding prepends the length byte, decoding the front record of the
encoding returns the payload with an empty remainder, and re-encoding the
decoded payload gives back the original encoding. -/
theorem pq_C5 (p : Bytes) (h : p.length ≤ 255) :
    encode_record p = .ok (p.length :: p) ∧
    decode_front_record (p.length :: p) = .ok (p, []) ∧
    ∃ enc1 pay rem, encode_record p = .ok enc1 ∧
      decode_front_record enc1 = .ok (pay, rem) ∧ rem = [] ∧
      encode_record pay = encode_record p := by
  have h1 : encode_record p = .ok (p.length :: p) := by
    simp [encode_record, h]
  have h2 : decode_front_record (p.length :: p) = .ok (p, []) := by
    unfold decode_front_record
    simp only []
    rw [if_pos (Nat.le_refl _), List.take_length, List.drop_length]
  exact ⟨h1, h2, p.length :: p, p, [], h1, h2, rfl, rfl⟩

theorem pq_C5_witness :
    encode_record [1, 2, 3] = .ok ([1, 2, 3].length :: [1, 2, 3]) ∧
    decode_front_record ([1, 2, 3].length :: [1, 2, 3]) = .ok ([1, 2, 3], []) ∧
    ∃ enc1 pay rem, encode_record [1, 2, 3] = .ok enc1 ∧
      decode_front_record enc1 = .ok (pay, rem) ∧ rem = [] ∧
      encode_record pay = encode_record [1, 2, 3] :=
  pq_C5 [1, 2, 3] (by decide)

/-- C6: on every reachable state, `is_empty` is true exactly when the number
of pending (inserted, not yet popped) payloads is zero; every entry of a
reachable store has a non-empty bucket; each successful `insert` adds exactly
one pending payload and each successful payload-returning `pop` removes
exactly one, so pending payloads count inserts minus pops. -/
theorem pq_C6 :
    (∀ q, Reachable q → ((is_empty q = true ↔ pendingCount q = 0) ∧
      ∀ e ∈ q, e.2 ≠ [])) ∧
    (∀ q q' el pr, Reachable q → insert q el pr = .ok q' →
      pendingCount q' = pendingCount q + 1) ∧
    (∀ q q' pl, Reachable q → pop q = .ok (some pl, q') →
      pendingCount q' + 1 = pendingCount q) := by
  refine ⟨?_, ?_, ?_⟩
  · intro q hq
    have hwf := reachable_wf hq
    refine ⟨⟨?_, ?_⟩, fun e he => (hwf.2 e he).2.2.2⟩
    · intro he
      have hq0 : q = [] := by simpa [is_empty, List.isEmpty_iff] using he
      subst hq0
      simp [pendingCount]
    · intro hp
      cases q with
      | nil => rfl
      | cons e rest =>
        exfalso
        have hene : e.2 ≠ [] := (hwf.2 e (by simp)).2.2.2
        have hpos : 0 < recordCount e.2 := recordCount_pos hene
        simp only [pendingCount, List.map_cons, List.sum_cons] at hp
        omega
  · intro q q' el pr hq hins
    exact pendingCount_insert (reachable_wf hq) hins
  · intro q q' pl hq hpop
    exact pendingCount_pop_some (reachable_wf hq) hpop

theorem pq_C6_witness :
    ((is_empty new = true ↔ pendingCount new = 0) ∧ ∀ e ∈ new, e.2 ≠ []) ∧
    pendingCount [([0, 0, 0, 0, 0, 0, 0, 5], [1, 0])] = pendingCount new + 1 :=
  ⟨pq_C6.1 new Reachable.base,
   pq_C6.2.1 new [([0, 0, 0, 0, 0, 0, 0, 5], [1, 0])] [0] 5 Reachable.base rfl⟩

/-- C7: the priority-key encoding is an order homomorphism: every 64-bit
priority maps to exactly 8 bytes, and unsigned numeric order coincides with
lexicographic byte order of the encodings. -/
theorem pq_C7 (a b : Nat) (ha : a < 2 ^ 64) (hb : b < 2 ^ 64) :
    (encode_priority a).length = 8 ∧
    (a < b ↔ lexLt (encode_priority a) (encode_priority b) = true) := by
  refine ⟨encode_priority_length a, ?_⟩
  rw [two_pow_64_eq] at ha hb
  exact (lexLt_beBytesAux 8 a b ha hb).symm

theorem pq_C7_witness :
    (encode_priority 255).length = 8 ∧
    (255 < 256 ↔ lexLt (encode_priority 255) (encode_priority 256) = true) :=
  pq_C7 255 256 (by decide) (by decide)

/-- C8: the zero-priority sentinel causes no false hit and no false miss: on
the empty queue, `peek` and `pop` return `none` and `is_empty` is true; and
when the only inserts all carry priority exactly 0, `peek` and `pop` return
the first inserted payload rather than `none`. -/
theorem pq_C8 :
    (peek new = .ok none ∧ pop new = .ok (none, new) ∧ is_empty new = true) ∧
    (∀ (p0 : Bytes) (ps : List Bytes), (∀ p ∈ p0 :: ps, p.length ≤ 255) →
      ∃ q, insertAll new ((p0 :: ps).map fun p => (p, 0)) = .ok q ∧
        peek q = .ok (some p0) ∧ ∃ q', pop q = .ok (some p0, q')) := by
  constructor
  · exact ⟨rfl, rfl, rfl⟩
  · intro p0 ps hlen
    refine ⟨[(encode_priority 0, encRecords (p0 :: ps))], ?_, ?_, ?_⟩
    · exact insertAll_from_new 0 p0 ps hlen
    · exact peek_single_key 0 (by norm_num) p0 ps
    · exact ⟨_, pop_single_key 0 (by norm_num) p0 ps⟩

theorem pq_C8_witness :
    (peek new = .ok none ∧ pop new = .ok (none, new) ∧ is_empty new = true) ∧
    (∃ q, insertAll new ([[7]].map fun p => (p, 0)) = .ok q ∧
      peek q = .ok (some [7]) ∧ ∃ q', pop q = .ok (some [7], q')) :=
  ⟨pq_C8.1, pq_C8.2 [7] [] (by decide)⟩

/-- C9: on every reachable state, every key is exactly 8 bytes and every
bucket is a well-formed record concatenation, so `peek` and `pop` never
return a `malformedKey`/`malformedRecord` error: both always succeed, and
`peek` returns `none` only on the empty queue. -/
theorem pq_C9 (q : Store) (hq : Reachable q) :
    (∀ e ∈ q, e.1.length = 8 ∧ validBucket e.2 = true) ∧
    (∃ r, peek q = .ok r) ∧ (∃ r q', pop q = .ok (r, q')) ∧
    (peek q = .ok none → is_empty q = true) := by
  have hwf := reachable_wf hq
  refine ⟨fun e he => ⟨(hwf.2 e he).1, (hwf.2 e he).2.2.1⟩, ?_, ?_, ?_⟩
  · obtain ⟨r, s', _, hpeek⟩ := peek_ok_of_wf hwf
    exact ⟨r, hpeek⟩
  · obtain ⟨r, s', hpop⟩ := pop_ok_of_wf hwf
    exact ⟨r, s', hpop⟩
  · intro hpeek
    obtain ⟨r, s', hpop, hpk⟩ := peek_ok_of_wf hwf
    rw [hpeek] at hpk
    have hr : r = none := (Except.ok.injEq .. ▸ hpk).symm
    rw [hr] at hpop
    obtain ⟨_, hq0⟩ := pop_none_of_wf hwf hpop
    rw [hq0]
    rfl

theorem pq_C9_witness :
    (∀ e ∈ [([0, 0, 0, 0, 0, 0, 0, 5], [1, 0])],
      e.1.length = 8 ∧ validBucket e.2 = true) ∧
    (∃ r, peek [([0, 0, 0, 0, 0, 0, 0, 5], [1, 0])] = .ok r) ∧
    (∃ r q', pop [([0, 0, 0, 0, 0, 0, 0, 5], [1, 0])] = .ok (r, q')) ∧
    (peek [([0, 0, 0, 0, 0, 0, 0, 5], [1, 0])] = .ok none →
      is_empty [([0, 0, 0, 0, 0, 0, 0, 5], [1, 0])] = true) :=
  pq_C9 _ (Reachable.step_ins new _ [0] 5 Reachable.base rfl)

/-- C10: on every reachable state, `peek` agrees with `pop`: `pop` succeeds
with some optional payload and resulting store, `peek` returns exactly that
optional payload, and `peek` returns `none` iff `pop` does. -/
theorem pq_C10 (q : Store) (hq : Reachable q) :
    ∃ r q', pop q = .ok (r, q') ∧ peek q = .ok r ∧
      (peek q = .ok none ↔ pop q = .ok (none, q')) := by
  have hwf := reachable_wf hq
  obtain ⟨r, q', hpop, hpeek⟩ := peek_ok_of_wf hwf
  refine ⟨r, q', hpop, hpeek, ?_, ?_⟩
  · intro h
    rw [h] at hpeek
    have hr : r = none := (Except.ok.injEq .. ▸ hpeek).symm
    rw [hr] at hpop
    exact hpop
  · intro h
    rw [h] at hpop
    have hr : none = r := congrArg Prod.fst (Except.ok.injEq .. ▸ hpop)
    rw [hpeek, ← hr]

theorem pq_C10_witness :
    ∃ r q', pop [([0, 0, 0, 0, 0, 0, 0, 5], [1, 0])] = .ok (r, q') ∧
      peek [([0, 0, 0, 0, 0, 0, 0, 5], [1, 0])] = .ok r ∧
      (peek [([0, 0, 0, 0, 0, 0, 0, 5], [1, 0])] = .ok none ↔
        pop [([0, 0, 0, 0, 0, 0, 0, 5], [1, 0])] = .ok (none, q')) :=
  pq_C10 _ (Reachable.step_ins new _ [0] 5 Reachable.base rfl)

end PQ
